import Mathlib

/-!
Verification of the systematic-variation dataset generator
(`src/preprocessing/generate_syst_dataset.py`).

The script is embedded shallowly: pyarrow tables become ordered lists of
named columns over an exact numeric cell type (machine floats are modelled
by rationals, so the statements below are the exact-arithmetic versions of
the floating-point code), random draws become explicit arguments (a value
`draw` stands for the raw variate returned by the numpy distribution call),
and the external `SystematicsApplier` collaborator becomes a function
parameter constrained only by its documented contract.
-/

/-! ## Configuration constants (lines 20-34 of the script) -/

def N_DATASETS_PER_TYPE : Nat := 50

def BASE_SLICE : Nat := 160000

def JES_SIGMA : ℚ := 1/100

def JES_MIN : ℚ := -(1/10)

def JES_MAX : ℚ := 1/10

def MET_LOGNORM_MEAN : ℚ := 0

def MET_LOGNORM_SIGMA : ℚ := 1

def MET_MIN : ℚ := 0

def MET_MAX : ℚ := 5

/-! ## Sampling utilities (lines 41-53)

`np.clip(x, lo, hi)` is `min(hi, max(x, lo))`; the raw normal / lognormal
variates are passed in as arguments. -/

def np_clip (x lo hi : ℚ) : ℚ := min hi (max x lo)

/-- Model of `sample_jes` (lines 41-44): clip the raw `np.random.normal(0, JES_SIGMA)`
variate `draw` to `[JES_MIN, JES_MAX]`. -/
def sample_jes (draw : ℚ) : ℚ := np_clip draw JES_MIN JES_MAX

/-- Model of `sample_met` (lines 47-53): clip the two raw lognormal variates
independently to `[MET_MIN, MET_MAX]`. -/
def sample_met (draw_px draw_py : ℚ) : ℚ × ℚ :=
  (np_clip draw_px MET_MIN MET_MAX, np_clip draw_py MET_MIN MET_MAX)

/-! ## Systematic shift builder (lines 60-72) -/

/-- One entry of the `object_shifts` dict: a feature list, a row-selection
predicate over the last axis of the source array (a row is a function from
feature index to value), a transformation of (current value, scale), and the
scale parameter. -/
structure ObjectShiftSpec where
  features : List String
  select : (Nat → ℚ) → Bool
  apply : ℚ → ℚ → ℚ
  scale : ℚ

/-- The `"jet_pt"` entry built by `make_jes_object_shift` (lines 65-72):
features `["pt"]`, selection `x[..., 5] == 0`, transformation
`v * (1.0 + s)`, scale `jes`. -/
def jes_pt_spec (jes : ℚ) : ObjectShiftSpec where
  features := ["pt"]
  select := fun x => decide (x 5 = 0)
  apply := fun v s => v * (1 + s)
  scale := jes

instance : Inhabited ObjectShiftSpec := ⟨jes_pt_spec 0⟩

/-- Model of `make_jes_object_shift` (lines 60-72): the one-key dict
`{"jet_pt": ...}` as an association list. -/
def make_jes_object_shift (jes : ℚ) : List (String × ObjectShiftSpec) :=
  [("jet_pt", jes_pt_spec jes)]

/-! ## Tables

A pyarrow table is an ordered list of named columns; a cell is a 32-bit
float or a 64-bit integer, both modelled exactly. -/

inductive Value where
  | f32 : ℚ → Value
  | i64 : Int → Value
deriving DecidableEq, Repr

abbrev Column := String × List Value

abbrev Table := List Column

/-- Model of `Table.num_rows`: the length of the first column (0 for a table with no
columns, matching an empty pyarrow table). -/
def numRows : Table → Nat
  | [] => 0
  | c :: _ => c.2.length

/-- Column access by name (first match, as the pyarrow lookup `table["name"]` resolves
the first column of that name). -/
def getCol (t : Table) (name : String) : List Value :=
  ((t.find? (fun c => c.1 == name)).map Prod.snd).getD []

/-- Model of `Table.append_column`: the new column goes at the end. -/
def append_column (t : Table) (name : String) (data : List Value) : Table :=
  t ++ [(name, data)]

/-- Model of `add_syst_columns` (lines 79-99): append the four bookkeeping columns
`syst_jes`/`syst_met_px`/`syst_met_py` (float32) and `syst_tag` (int64),
each a single value broadcast `table.num_rows` times. -/
def add_syst_columns (t : Table) (jes met_px met_py : ℚ) (tag : Int) : Table :=
  let n := numRows t
  let t1 := append_column t "syst_jes" (List.replicate n (Value.f32 jes))
  let t2 := append_column t1 "syst_met_px" (List.replicate n (Value.f32 met_px))
  let t3 := append_column t2 "syst_met_py" (List.replicate n (Value.f32 met_py))
  append_column t3 "syst_tag" (List.replicate n (Value.i64 tag))

/-- The four bookkeeping column names, in append order. -/
def systNames : List String := ["syst_jes", "syst_met_px", "syst_met_py", "syst_tag"]

/-- Model of `pa.concat_tables` (lines 151, 182, 216) for a list of same-schema
tables: the schema of the first table, each column the concatenation of the
homonymous columns of all tables. -/
def concat_tables : List Table → Table
  | [] => []
  | t :: rest =>
      t.map (fun c => (c.1, ((t :: rest).map (fun u => getCol u c.1)).flatten))

/-! ## Basic lemmas about the table model -/

theorem add_syst_append (t : Table) (j p q : ℚ) (g : Int) :
    add_syst_columns t j p q g =
      t ++ [("syst_jes", List.replicate (numRows t) (Value.f32 j)),
            ("syst_met_px", List.replicate (numRows t) (Value.f32 p)),
            ("syst_met_py", List.replicate (numRows t) (Value.f32 q)),
            ("syst_tag", List.replicate (numRows t) (Value.i64 g))] := by
  simp [add_syst_columns, append_column, List.append_assoc]

theorem numRows_append (t : Table) (u : Table) (hu : ∀ c ∈ u, c.2.length = numRows t) :
    numRows (t ++ u) = numRows t := by
  cases t with
  | nil =>
      cases u with
      | nil => rfl
      | cons c u' => simpa [numRows] using hu c (by simp)
  | cons c t' => rfl

theorem find?_name_eq_none (t : Table) (name : String) (h : name ∉ t.map Prod.fst) :
    t.find? (fun c => c.1 == name) = none := by
  rw [List.find?_eq_none]
  intro c hc hbeq
  exact h (by
    have : c.1 = name := by simpa using hbeq
    exact this ▸ List.mem_map_of_mem Prod.fst hc)

theorem find?_name_isSome (t : Table) (name : String) (h : name ∈ t.map Prod.fst) :
    (t.find? (fun c => c.1 == name)).isSome := by
  rw [List.find?_isSome]
  obtain ⟨c, hc, hc1⟩ := List.mem_map.mp h
  exact ⟨c, hc, by simp [hc1]⟩

theorem getCol_append_of_none (t u : Table) (name : String)
    (h : t.find? (fun c => c.1 == name) = none) :
    getCol (t ++ u) name = getCol u name := by
  simp [getCol, List.find?_append, h]

theorem getCol_append_of_isSome (t u : Table) (name : String)
    (h : (t.find? (fun c => c.1 == name)).isSome) :
    getCol (t ++ u) name = getCol t name := by
  obtain ⟨c, hc⟩ := Option.isSome_iff_exists.mp h
  simp [getCol, List.find?_append, hc]

theorem getCol_length (t : Table) (name : String) (n : Nat)
    (hmem : name ∈ t.map Prod.fst) (hlen : ∀ c ∈ t, c.2.length = n) :
    (getCol t name).length = n := by
  have hs := find?_name_isSome t name hmem
  obtain ⟨c, hc⟩ := Option.isSome_iff_exists.mp hs
  have hct : c ∈ t := List.mem_of_find?_eq_some hc
  simp [getCol, hc, hlen c hct]

theorem getCol_add_syst_jes (t : Table) (j p q : ℚ) (g : Int)
    (h : "syst_jes" ∉ t.map Prod.fst) :
    getCol (add_syst_columns t j p q g) "syst_jes"
      = List.replicate (numRows t) (Value.f32 j) := by
  rw [add_syst_append, getCol_append_of_none _ _ _ (find?_name_eq_none t _ h)]
  rfl

theorem getCol_add_syst_px (t : Table) (j p q : ℚ) (g : Int)
    (h : "syst_met_px" ∉ t.map Prod.fst) :
    getCol (add_syst_columns t j p q g) "syst_met_px"
      = List.replicate (numRows t) (Value.f32 p) := by
  rw [add_syst_append, getCol_append_of_none _ _ _ (find?_name_eq_none t _ h)]
  rfl

theorem getCol_add_syst_py (t : Table) (j p q : ℚ) (g : Int)
    (h : "syst_met_py" ∉ t.map Prod.fst) :
    getCol (add_syst_columns t j p q g) "syst_met_py"
      = List.replicate (numRows t) (Value.f32 q) := by
  rw [add_syst_append, getCol_append_of_none _ _ _ (find?_name_eq_none t _ h)]
  rfl

theorem getCol_add_syst_tag (t : Table) (j p q : ℚ) (g : Int)
    (h : "syst_tag" ∉ t.map Prod.fst) :
    getCol (add_syst_columns t j p q g) "syst_tag"
      = List.replicate (numRows t) (Value.i64 g) := by
  rw [add_syst_append, getCol_append_of_none _ _ _ (find?_name_eq_none t _ h)]
  rfl

theorem getD_replicate_of_lt {α : Type} (n k : Nat) (a d : α) (h : k < n) :
    (List.replicate n a).getD k d = a := by
  simp [List.getD_eq_getElem?_getD, List.getElem?_replicate, h]

theorem sum_map_const {α : Type} (l : List α) (n : Nat) :
    (l.map (fun _ => n)).sum = l.length * n := by
  rw [List.map_const', List.sum_replicate, smul_eq_mul]

theorem length_flatten_replicate {α : Type} (n N : Nat) (g : Nat → α) :
    (((List.range N).map (fun i => List.replicate n (g i))).flatten).length = N * n := by
  rw [List.length_flatten, List.map_map]
  have : (List.length ∘ fun i => List.replicate n (g i)) = fun _ => n := by
    funext i; simp
  rw [this, sum_map_const, List.length_range]

theorem getD_flatten_replicate {α : Type} (n N j : Nat) (g : Nat → α) (d : α)
    (hj : j < N * n) :
    ((((List.range N).map (fun i => List.replicate n (g i))).flatten).getD j d)
      = g (j / n) := by
  induction N with
  | zero => omega
  | succ M ih =>
      rw [List.range_succ, List.map_append, List.flatten_append]
      by_cases hcase : j < M * n
      · rw [List.getD_append _ _ _ _ (by rw [length_flatten_replicate]; exact hcase)]
        exact ih hcase
      · have hle : M * n ≤ j := Nat.le_of_not_lt hcase
        have hlen : (((List.range M).map (fun i => List.replicate n (g i))).flatten).length
            = M * n := length_flatten_replicate n M g
        rw [List.getD_append_right _ _ _ _ (by rw [hlen]; exact hle), hlen]
        have hjn : j < (M + 1) * n := hj
        have hdiv : j / n = M := Nat.div_eq_of_lt_le hle hjn
        rw [hdiv]
        simp only [List.flatten, List.append_nil]
        have hexp : (M + 1) * n = M * n + n := by ring
        exact getD_replicate_of_lt n (j - M * n) (g M) d (by omega)

/-! ## Concatenation lemmas -/

theorem getCol_concat_cons (t : Table) (rest : List Table) (name : String)
    (h : (t.find? (fun c => c.1 == name)).isSome) :
    getCol (concat_tables (t :: rest)) name
      = ((t :: rest).map (fun u => getCol u name)).flatten := by
  obtain ⟨c, hc⟩ := Option.isSome_iff_exists.mp h
  have hc1 : c.1 = name := by
    have := List.find?_some hc
    simpa using this
  have e1 : concat_tables (t :: rest)
      = t.map (fun c => (c.1, ((t :: rest).map (fun u => getCol u c.1)).flatten)) := rfl
  have hcomp : ((fun c : Column => c.1 == name) ∘
      (fun c : Column => (c.1, ((t :: rest).map (fun u => getCol u c.1)).flatten)))
      = (fun c : Column => c.1 == name) := rfl
  rw [e1, getCol, List.find?_map, hcomp, hc]
  simp [hc1]

theorem numRows_concat_cons (c : Column) (t' : Table) (rest : List Table) :
    numRows (concat_tables ((c :: t') :: rest))
      = (((c :: t') :: rest).map (fun u => (getCol u c.1).length)).sum := by
  unfold concat_tables
  simp only [List.map_cons, numRows, List.length_flatten, List.map_map]
  rfl

/-! ## The batch orchestrator (`main`, lines 106-220)

`syst.apply(base, object_shifts, met_shift, recompute_globals)` is the
external `SystematicsApplier`; it is a function parameter here. The raw
variates of the process-wide numpy RNG form a stream `draws : Nat → ℚ`,
consumed sequentially: the JES-only family reads one variate per cycle
(positions `0..N-1`), the MET-only family two (positions `N + 2*i`,
`N + 2*i + 1`), the JES+MET family three (positions `3*N + 3*i + k`). -/

def SystApplier : Type :=
  Table → Option (List (String × ObjectShiftSpec)) → Option (ℚ × ℚ) → Bool → Table

/-- The JES-only loop body and collection (lines 129-147). -/
def jes_only_tables (syst : SystApplier) (base : Table) (draws : Nat → ℚ)
    (N : Nat) : List Table :=
  (List.range N).map fun i =>
    let jes := sample_jes (draws i)
    let shifted := syst base (some (make_jes_object_shift jes)) none true
    add_syst_columns shifted jes 0 0 (Int.ofNat i)

/-- Model of `table_jes_only` (line 151). -/
def table_jes_only (syst : SystApplier) (base : Table) (draws : Nat → ℚ)
    (N : Nat) : Table :=
  concat_tables (jes_only_tables syst base draws N)

/-- The MET-only loop body and collection (lines 160-178). -/
def met_only_tables (syst : SystApplier) (base : Table) (draws : Nat → ℚ)
    (N : Nat) : List Table :=
  (List.range N).map fun i =>
    let met := sample_met (draws (N + 2 * i)) (draws (N + 2 * i + 1))
    let shifted := syst base none (some met) true
    add_syst_columns shifted 0 met.1 met.2 (Int.ofNat i)

/-- Model of `table_met_only` (line 182). -/
def table_met_only (syst : SystApplier) (base : Table) (draws : Nat → ℚ)
    (N : Nat) : Table :=
  concat_tables (met_only_tables syst base draws N)

/-- The JES+MET loop body and collection (lines 190-209). -/
def jes_met_tables (syst : SystApplier) (base : Table) (draws : Nat → ℚ)
    (N : Nat) : List Table :=
  (List.range N).map fun i =>
    let jes := sample_jes (draws (3 * N + 3 * i))
    let met := sample_met (draws (3 * N + 3 * i + 1)) (draws (3 * N + 3 * i + 2))
    let shifted := syst base (some (make_jes_object_shift jes)) (some met) true
    add_syst_columns shifted jes met.1 met.2 (Int.ofNat i)

/-- Model of `table_jes_met` (line 216). -/
def table_jes_met (syst : SystApplier) (base : Table) (draws : Nat → ℚ)
    (N : Nat) : Table :=
  concat_tables (jes_met_tables syst base draws N)

/-! ## The per-family block structure -/

/-- The generic shape of each family loop: cycle `i` annotates the applier
output `applied i` with parameters `jv i, pv i, qv i` and tag `i`. Each of
the three loops of `main` is definitionally of this shape. -/
def annotate_cycles (applied : Nat → Table) (jv pv qv : Nat → ℚ) (N : Nat) :
    List Table :=
  (List.range N).map fun i =>
    add_syst_columns (applied i) (jv i) (pv i) (qv i) (Int.ofNat i)

theorem find?_add_syst_isSome (t : Table) (j p q : ℚ) (g : Int) (s : String)
    (hmem : s ∈ systNames) :
    ((add_syst_columns t j p q g).find? (fun c => c.1 == s)).isSome := by
  apply find?_name_isSome
  rw [add_syst_append]
  simp only [systNames, List.mem_cons, List.not_mem_nil, or_false] at hmem
  rcases hmem with rfl | rfl | rfl | rfl <;> simp

theorem getCol_annotate_concat (h : Nat → Table) (M n : Nat) (s : String)
    (v : Nat → Value)
    (hhead : ((h 0).find? (fun c => c.1 == s)).isSome)
    (hval : ∀ i, getCol (h i) s = List.replicate n (v i)) :
    getCol (concat_tables ((List.range (M + 1)).map h)) s
      = ((List.range (M + 1)).map (fun i => List.replicate n (v i))).flatten := by
  have hcons : (List.range (M + 1)).map h
      = h 0 :: (List.range M).map (h ∘ Nat.succ) := by
    rw [List.range_succ_eq_map, List.map_cons, List.map_map]
  rw [hcons, getCol_concat_cons _ _ _ hhead, ← hcons, List.map_map]
  congr 1
  apply List.map_congr_left
  intro i _
  simpa using hval i

theorem numRows_annotate_concat (h : Nat → Table) (M n : Nat) (c : Column)
    (t' : Table) (hhead : h 0 = c :: t')
    (hlen : ∀ i, (getCol (h i) c.1).length = n) :
    numRows (concat_tables ((List.range (M + 1)).map h)) = (M + 1) * n := by
  have hcons : (List.range (M + 1)).map h
      = h 0 :: (List.range M).map (h ∘ Nat.succ) := by
    rw [List.range_succ_eq_map, List.map_cons, List.map_map]
  rw [hcons, hhead, numRows_concat_cons, ← hhead, ← hcons, List.map_map]
  have hconst : ((fun u => (getCol u c.1).length) ∘ h) = fun _ => n :=
    funext fun i => hlen i
  rw [hconst, sum_map_const, List.length_range]

theorem fam_spec (applied : Nat → Table) (jv pv qv : Nat → ℚ) (N n : Nat)
    (hrow : ∀ i, numRows (applied i) = n)
    (hlen : ∀ i, ∀ c ∈ applied i, c.2.length = n)
    (hnm : ∀ i, (applied i).map Prod.fst = (applied 0).map Prod.fst)
    (hsyst : ∀ s ∈ systNames, s ∉ (applied 0).map Prod.fst) :
    numRows (concat_tables (annotate_cycles applied jv pv qv N)) = N * n
    ∧ getCol (concat_tables (annotate_cycles applied jv pv qv N)) "syst_jes"
        = ((List.range N).map (fun i => List.replicate n (Value.f32 (jv i)))).flatten
    ∧ getCol (concat_tables (annotate_cycles applied jv pv qv N)) "syst_met_px"
        = ((List.range N).map (fun i => List.replicate n (Value.f32 (pv i)))).flatten
    ∧ getCol (concat_tables (annotate_cycles applied jv pv qv N)) "syst_met_py"
        = ((List.range N).map (fun i => List.replicate n (Value.f32 (qv i)))).flatten
    ∧ getCol (concat_tables (annotate_cycles applied jv pv qv N)) "syst_tag"
        = ((List.range N).map (fun i => List.replicate n (Value.i64 (Int.ofNat i)))).flatten := by
  have hsyst' : ∀ i, ∀ s ∈ systNames, s ∉ (applied i).map Prod.fst := by
    intro i s hs
    rw [hnm i]
    exact hsyst s hs
  cases N with
  | zero =>
      exact ⟨by simp [annotate_cycles, concat_tables, numRows], rfl, rfl, rfl, rfl⟩
  | succ M =>
      simp only [annotate_cycles]
      have hjes := getCol_annotate_concat
        (fun i => add_syst_columns (applied i) (jv i) (pv i) (qv i) (Int.ofNat i))
        M n "syst_jes" (fun i => Value.f32 (jv i))
        (find?_add_syst_isSome _ _ _ _ _ _ (by simp [systNames]))
        (fun i => by
          rw [getCol_add_syst_jes _ _ _ _ _ (hsyst' i _ (by simp [systNames])), hrow i])
      have hpx := getCol_annotate_concat
        (fun i => add_syst_columns (applied i) (jv i) (pv i) (qv i) (Int.ofNat i))
        M n "syst_met_px" (fun i => Value.f32 (pv i))
        (find?_add_syst_isSome _ _ _ _ _ _ (by simp [systNames]))
        (fun i => by
          rw [getCol_add_syst_px _ _ _ _ _ (hsyst' i _ (by simp [systNames])), hrow i])
      have hpy := getCol_annotate_concat
        (fun i => add_syst_columns (applied i) (jv i) (pv i) (qv i) (Int.ofNat i))
        M n "syst_met_py" (fun i => Value.f32 (qv i))
        (find?_add_syst_isSome _ _ _ _ _ _ (by simp [systNames]))
        (fun i => by
          rw [getCol_add_syst_py _ _ _ _ _ (hsyst' i _ (by simp [systNames])), hrow i])
      have htag := getCol_annotate_concat
        (fun i => add_syst_columns (applied i) (jv i) (pv i) (qv i) (Int.ofNat i))
        M n "syst_tag" (fun i => Value.i64 (Int.ofNat i))
        (find?_add_syst_isSome _ _ _ _ _ _ (by simp [systNames]))
        (fun i => by
          rw [getCol_add_syst_tag _ _ _ _ _ (hsyst' i _ (by simp [systNames])), hrow i])
      refine ⟨?_, hjes, hpx, hpy, htag⟩
      cases happ : applied 0 with
      | nil =>
          have happi : ∀ i, applied i = [] := by
            intro i
            have := hnm i
            rw [happ] at this
            simpa using List.map_eq_nil_iff.mp this
          have hn0 : n = 0 := by
            have := hrow 0
            rw [happi 0] at this
            simpa [numRows] using this.symm
          apply numRows_annotate_concat
            (fun i => add_syst_columns (applied i) (jv i) (pv i) (qv i) (Int.ofNat i))
            M n ("syst_jes", List.replicate (numRows (applied 0)) (Value.f32 (jv 0)))
            [("syst_met_px", List.replicate (numRows (applied 0)) (Value.f32 (pv 0))),
             ("syst_met_py", List.replicate (numRows (applied 0)) (Value.f32 (qv 0))),
             ("syst_tag", List.replicate (numRows (applied 0)) (Value.i64 (Int.ofNat 0)))]
          · rw [add_syst_append, happ]
            rfl
          · intro i
            rw [getCol_add_syst_jes _ _ _ _ _ (hsyst' i _ (by simp [systNames]))]
            rw [List.length_replicate, hrow i]
      | cons c0 t0 =>
          have hmem0 : c0.1 ∈ (applied 0).map Prod.fst := by
            rw [happ]
            simp
          apply numRows_annotate_concat
            (fun i => add_syst_columns (applied i) (jv i) (pv i) (qv i) (Int.ofNat i))
            M n c0
            (t0 ++ [("syst_jes", List.replicate (numRows (applied 0)) (Value.f32 (jv 0))),
                    ("syst_met_px", List.replicate (numRows (applied 0)) (Value.f32 (pv 0))),
                    ("syst_met_py", List.replicate (numRows (applied 0)) (Value.f32 (qv 0))),
                    ("syst_tag", List.replicate (numRows (applied 0)) (Value.i64 (Int.ofNat 0)))])
          · rw [add_syst_append, happ]
            rfl
          · intro i
            have hmemi : c0.1 ∈ (applied i).map Prod.fst := by
              rw [hnm i]
              exact hmem0
            have hstep : getCol (add_syst_columns (applied i) (jv i) (pv i) (qv i)
                (Int.ofNat i)) c0.1 = getCol (applied i) c0.1 := by
              rw [add_syst_append]
              exact getCol_append_of_isSome _ _ _ (find?_name_isSome _ _ hmemi)
            rw [hstep]
            exact getCol_length (applied i) c0.1 n hmemi (hlen i)

/-- The block invariant of a Family Output Table: `N * n` rows, each
bookkeeping column the concatenation of `N` constant blocks of `n` rows in
cycle order, and the tag column equal to the block index at every row. -/
def blockSpec (fam : Table) (N n : Nat) (jv pv qv : Nat → ℚ) : Prop :=
  numRows fam = N * n
  ∧ getCol fam "syst_jes"
      = ((List.range N).map (fun i => List.replicate n (Value.f32 (jv i)))).flatten
  ∧ getCol fam "syst_met_px"
      = ((List.range N).map (fun i => List.replicate n (Value.f32 (pv i)))).flatten
  ∧ getCol fam "syst_met_py"
      = ((List.range N).map (fun i => List.replicate n (Value.f32 (qv i)))).flatten
  ∧ getCol fam "syst_tag"
      = ((List.range N).map (fun i => List.replicate n (Value.i64 (Int.ofNat i)))).flatten
  ∧ ∀ j, j < N * n →
      (getCol fam "syst_tag").getD j (Value.i64 0) = Value.i64 (Int.ofNat (j / n))

theorem fam_blockSpec (applied : Nat → Table) (jv pv qv : Nat → ℚ) (N n : Nat)
    (hrow : ∀ i, numRows (applied i) = n)
    (hlen : ∀ i, ∀ c ∈ applied i, c.2.length = n)
    (hnm : ∀ i, (applied i).map Prod.fst = (applied 0).map Prod.fst)
    (hsyst : ∀ s ∈ systNames, s ∉ (applied 0).map Prod.fst) :
    blockSpec (concat_tables (annotate_cycles applied jv pv qv N)) N n jv pv qv := by
  obtain ⟨h1, h2, h3, h4, h5⟩ := fam_spec applied jv pv qv N n hrow hlen hnm hsyst
  refine ⟨h1, h2, h3, h4, h5, ?_⟩
  intro j hj
  rw [h5]
  exact getD_flatten_replicate n N j (fun i => Value.i64 (Int.ofNat i)) _ hj

/-! ## Concrete fixtures used by witnesses -/

/-- An applier that returns the base table unchanged: a legal
`SystematicsApplier` double (deterministic, row- and schema-preserving). -/
def idApplier : SystApplier := fun base _ _ _ => base

/-- A two-row base table with a single `pt` column. -/
def baseW : Table := [("pt", [Value.f32 10, Value.f32 20])]

/-- A constant raw-variate stream. -/
def zeroDraws : Nat → ℚ := fun _ => 0

theorem np_clip_bounds (x lo hi : ℚ) (h : lo ≤ hi) :
    lo ≤ np_clip x lo hi ∧ np_clip x lo hi ≤ hi :=
  ⟨le_min h (le_trans (le_max_right x lo) (le_refl _)), min_le_left _ _⟩

/-- C1: for every `jes`, `make_jes_object_shift jes` is the single entry
`"jet_pt"` whose selection predicate holds exactly on rows with object-type
discriminator (index 5) equal to the jet value 0, whose target feature is
`"pt"`, whose scale parameter is `jes`, and whose transformation maps `v`
to `v * (1 + jes)`. -/
theorem make_jes_object_shift_spec (jes : ℚ) :
    make_jes_object_shift jes = [("jet_pt", jes_pt_spec jes)]
    ∧ (jes_pt_spec jes).features = ["pt"]
    ∧ (jes_pt_spec jes).scale = jes
    ∧ (∀ row : Nat → ℚ, ((jes_pt_spec jes).select row = true ↔ row 5 = 0))
    ∧ ∀ v : ℚ, (jes_pt_spec jes).apply v jes = v * (1 + jes) := by
  refine ⟨rfl, rfl, rfl, ?_, fun v => rfl⟩
  intro row
  simp [jes_pt_spec]

/-- C3: every sampled JES value lies in `[JES_MIN, JES_MAX]`, and both
components of every sampled MET pair lie in `[MET_MIN, MET_MAX]` and are
non-negative, whatever the raw variates were. -/
theorem sample_bounds (draw dpx dpy : ℚ) :
    JES_MIN ≤ sample_jes draw ∧ sample_jes draw ≤ JES_MAX
    ∧ MET_MIN ≤ (sample_met dpx dpy).1 ∧ (sample_met dpx dpy).1 ≤ MET_MAX
    ∧ MET_MIN ≤ (sample_met dpx dpy).2 ∧ (sample_met dpx dpy).2 ≤ MET_MAX
    ∧ 0 ≤ (sample_met dpx dpy).1 ∧ 0 ≤ (sample_met dpx dpy).2 := by
  have hj := np_clip_bounds draw JES_MIN JES_MAX (by norm_num [JES_MIN, JES_MAX])
  have hx := np_clip_bounds dpx MET_MIN MET_MAX (by norm_num [MET_MIN, MET_MAX])
  have hy := np_clip_bounds dpy MET_MIN MET_MAX (by norm_num [MET_MIN, MET_MAX])
  exact ⟨hj.1, hj.2, hx.1, hx.2, hy.1, hy.2, hx.1, hy.1⟩

/-- C9: the JES transformation with a zero shift is the identity: the shift
description built by `make_jes_object_shift 0` maps every value `v` to
`v` when applied at its own scale parameter. -/
theorem jes_zero_shift_identity (v : ℚ) :
    (make_jes_object_shift 0).headI.2.apply v ((make_jes_object_shift 0).headI.2.scale)
      = v := by
  show v * (1 + 0) = v
  ring

/-- C10: `add_syst_columns` is total and preserves the row count for every
input table, including a zero-row one; the appended columns broadcast each
parameter `numRows t` times (hence are empty for a zero-row input).
Totality — the function never raises — is inherent in it being a Lean
function. -/
theorem add_syst_columns_row_preservation (t : Table) (j p q : ℚ) (g : Int) :
    numRows (add_syst_columns t j p q g) = numRows t
    ∧ (add_syst_columns t j p q g).length = t.length + 4
    ∧ List.drop t.length (add_syst_columns t j p q g)
        = [("syst_jes", List.replicate (numRows t) (Value.f32 j)),
           ("syst_met_px", List.replicate (numRows t) (Value.f32 p)),
           ("syst_met_py", List.replicate (numRows t) (Value.f32 q)),
           ("syst_tag", List.replicate (numRows t) (Value.i64 g))] := by
  refine ⟨?_, ?_, ?_⟩
  · rw [add_syst_append]
    apply numRows_append
    intro c hc
    simp only [List.mem_cons, List.not_mem_nil, or_false] at hc
    rcases hc with rfl | rfl | rfl | rfl <;> simp
  · rw [add_syst_append, List.length_append]
    rfl
  · rw [add_syst_append, List.drop_left]

/-- C4: `add_syst_columns` returns the input columns unchanged followed by
exactly the four bookkeeping columns `syst_jes`, `syst_met_px`,
`syst_met_py` (32-bit float) and `syst_tag` (64-bit integer), each a single
value broadcast to every row; the input table itself is untouched (the
result merely extends it). -/
theorem add_syst_columns_spec (t : Table) (j p q : ℚ) (g : Int)
    (hs : ∀ s ∈ systNames, s ∉ t.map Prod.fst) :
    List.take t.length (add_syst_columns t j p q g) = t
    ∧ (add_syst_columns t j p q g).map Prod.fst = t.map Prod.fst ++ systNames
    ∧ getCol (add_syst_columns t j p q g) "syst_jes"
        = List.replicate (numRows t) (Value.f32 j)
    ∧ getCol (add_syst_columns t j p q g) "syst_met_px"
        = List.replicate (numRows t) (Value.f32 p)
    ∧ getCol (add_syst_columns t j p q g) "syst_met_py"
        = List.replicate (numRows t) (Value.f32 q)
    ∧ getCol (add_syst_columns t j p q g) "syst_tag"
        = List.replicate (numRows t) (Value.i64 g) := by
  refine ⟨?_, ?_, ?_, ?_, ?_, ?_⟩
  · rw [add_syst_append, List.take_left]
  · rw [add_syst_append, List.map_append]
    rfl
  · exact getCol_add_syst_jes t j p q g (hs _ (by simp [systNames]))
  · exact getCol_add_syst_px t j p q g (hs _ (by simp [systNames]))
  · exact getCol_add_syst_py t j p q g (hs _ (by simp [systNames]))
  · exact getCol_add_syst_tag t j p q g (hs _ (by simp [systNames]))

theorem add_syst_columns_spec_witness :
    getCol (add_syst_columns baseW 1 2 3 4) "syst_tag"
      = List.replicate (numRows baseW) (Value.i64 4) :=
  (add_syst_columns_spec baseW 1 2 3 4 (fun s hs => by
    simp only [systNames, List.mem_cons, List.not_mem_nil, or_false] at hs
    rcases hs with rfl | rfl | rfl | rfl <;> decide)).2.2.2.2.2

theorem getD_map_range {α : Type} (f : Nat → α) (N i : Nat) (d : α) (h : i < N) :
    ((List.range N).map f).getD i d = f i := by
  rw [List.getD_eq_getElem?_getD, List.getElem?_map, List.getElem?_range h]
  rfl

/-- C2: for every family, if the applier preserves the row count of the
base working slice (and, as every pyarrow table does, keeps its columns
rectangular, its schema fixed, and free of the bookkeeping names), then the
Family Output Table has `N * numRows base` rows, its four bookkeeping
columns are constant on each contiguous block of `numRows base` rows, and
its `syst_tag` column equals the block index everywhere — each value of
`0..N-1` occurring in exactly one block, in increasing order. -/
theorem family_output_block_structure
    (syst : SystApplier) (base : Table) (draws : Nat → ℚ) (N : Nat)
    (hrow : ∀ sh ms, numRows (syst base sh ms true) = numRows base)
    (hlen : ∀ sh ms, ∀ c ∈ syst base sh ms true, c.2.length = numRows base)
    (hnm : ∀ sh ms sh2 ms2,
      (syst base sh ms true).map Prod.fst = (syst base sh2 ms2 true).map Prod.fst)
    (hsyst : ∀ sh ms, ∀ s ∈ systNames, s ∉ (syst base sh ms true).map Prod.fst) :
    blockSpec (table_jes_only syst base draws N) N (numRows base)
        (fun i => sample_jes (draws i)) (fun _ => 0) (fun _ => 0)
    ∧ blockSpec (table_met_only syst base draws N) N (numRows base)
        (fun _ => 0)
        (fun i => (sample_met (draws (N + 2 * i)) (draws (N + 2 * i + 1))).1)
        (fun i => (sample_met (draws (N + 2 * i)) (draws (N + 2 * i + 1))).2)
    ∧ blockSpec (table_jes_met syst base draws N) N (numRows base)
        (fun i => sample_jes (draws (3 * N + 3 * i)))
        (fun i => (sample_met (draws (3 * N + 3 * i + 1)) (draws (3 * N + 3 * i + 2))).1)
        (fun i => (sample_met (draws (3 * N + 3 * i + 1)) (draws (3 * N + 3 * i + 2))).2) := by
  refine ⟨?_, ?_, ?_⟩
  · exact fam_blockSpec
      (fun i => syst base (some (make_jes_object_shift (sample_jes (draws i)))) none true)
      (fun i => sample_jes (draws i)) (fun _ => 0) (fun _ => 0) N (numRows base)
      (fun i => hrow _ _) (fun i => hlen _ _) (fun i => hnm _ _ _ _) (hsyst _ _)
  · exact fam_blockSpec
      (fun i => syst base none (some (sample_met (draws (N + 2 * i)) (draws (N + 2 * i + 1)))) true)
      (fun _ => 0)
      (fun i => (sample_met (draws (N + 2 * i)) (draws (N + 2 * i + 1))).1)
      (fun i => (sample_met (draws (N + 2 * i)) (draws (N + 2 * i + 1))).2) N (numRows base)
      (fun i => hrow _ _) (fun i => hlen _ _) (fun i => hnm _ _ _ _) (hsyst _ _)
  · exact fam_blockSpec
      (fun i => syst base (some (make_jes_object_shift (sample_jes (draws (3 * N + 3 * i)))))
        (some (sample_met (draws (3 * N + 3 * i + 1)) (draws (3 * N + 3 * i + 2)))) true)
      (fun i => sample_jes (draws (3 * N + 3 * i)))
      (fun i => (sample_met (draws (3 * N + 3 * i + 1)) (draws (3 * N + 3 * i + 2))).1)
      (fun i => (sample_met (draws (3 * N + 3 * i + 1)) (draws (3 * N + 3 * i + 2))).2) N (numRows base)
      (fun i => hrow _ _) (fun i => hlen _ _) (fun i => hnm _ _ _ _) (hsyst _ _)

theorem family_output_block_structure_witness :
    blockSpec (table_jes_only idApplier baseW zeroDraws 2) 2 (numRows baseW)
      (fun i => sample_jes (zeroDraws i)) (fun _ => 0) (fun _ => 0) :=
  (family_output_block_structure idApplier baseW zeroDraws 2
    (fun _ _ => rfl)
    (fun _ _ c hc => by rw [List.mem_singleton.mp hc]; rfl)
    (fun _ _ _ _ => rfl)
    (fun _ _ s hs => by
      simp only [systNames, List.mem_cons, List.not_mem_nil, or_false] at hs
      rcases hs with rfl | rfl | rfl | rfl <;> simp [idApplier, baseW])).1

/-- C5: in every JES-only cycle the annotated table carries
`syst_met_px = 0.0` and `syst_met_py = 0.0` on every row, in every MET-only
cycle it carries `syst_jes = 0.0` on every row, and in each of the three
families cycle `i` is tagged with `syst_tag = i`. -/
theorem per_cycle_bookkeeping (syst : SystApplier) (base : Table)
    (draws : Nat → ℚ) (N : Nat)
    (hrow : ∀ sh ms, numRows (syst base sh ms true) = numRows base)
    (hsyst : ∀ sh ms, ∀ s ∈ systNames, s ∉ (syst base sh ms true).map Prod.fst)
    (i : Nat) (hi : i < N) :
    getCol ((jes_only_tables syst base draws N).getD i []) "syst_met_px"
        = List.replicate (numRows base) (Value.f32 0)
    ∧ getCol ((jes_only_tables syst base draws N).getD i []) "syst_met_py"
        = List.replicate (numRows base) (Value.f32 0)
    ∧ getCol ((jes_only_tables syst base draws N).getD i []) "syst_tag"
        = List.replicate (numRows base) (Value.i64 (Int.ofNat i))
    ∧ getCol ((met_only_tables syst base draws N).getD i []) "syst_jes"
        = List.replicate (numRows base) (Value.f32 0)
    ∧ getCol ((met_only_tables syst base draws N).getD i []) "syst_tag"
        = List.replicate (numRows base) (Value.i64 (Int.ofNat i))
    ∧ getCol ((jes_met_tables syst base draws N).getD i []) "syst_tag"
        = List.replicate (numRows base) (Value.i64 (Int.ofNat i)) := by
  have e1 : (jes_only_tables syst base draws N).getD i []
      = add_syst_columns
          (syst base (some (make_jes_object_shift (sample_jes (draws i)))) none true)
          (sample_jes (draws i)) 0 0 (Int.ofNat i) :=
    getD_map_range _ N i [] hi
  have e2 : (met_only_tables syst base draws N).getD i []
      = add_syst_columns
          (syst base none (some (sample_met (draws (N + 2 * i)) (draws (N + 2 * i + 1)))) true)
          0 (sample_met (draws (N + 2 * i)) (draws (N + 2 * i + 1))).1
          (sample_met (draws (N + 2 * i)) (draws (N + 2 * i + 1))).2 (Int.ofNat i) :=
    getD_map_range _ N i [] hi
  have e3 : (jes_met_tables syst base draws N).getD i []
      = add_syst_columns
          (syst base (some (make_jes_object_shift (sample_jes (draws (3 * N + 3 * i)))))
            (some (sample_met (draws (3 * N + 3 * i + 1)) (draws (3 * N + 3 * i + 2)))) true)
          (sample_jes (draws (3 * N + 3 * i)))
          (sample_met (draws (3 * N + 3 * i + 1)) (draws (3 * N + 3 * i + 2))).1
          (sample_met (draws (3 * N + 3 * i + 1)) (draws (3 * N + 3 * i + 2))).2
          (Int.ofNat i) :=
    getD_map_range _ N i [] hi
  refine ⟨?_, ?_, ?_, ?_, ?_, ?_⟩
  · rw [e1, getCol_add_syst_px _ _ _ _ _ (hsyst _ _ _ (by simp [systNames])), hrow]
  · rw [e1, getCol_add_syst_py _ _ _ _ _ (hsyst _ _ _ (by simp [systNames])), hrow]
  · rw [e1, getCol_add_syst_tag _ _ _ _ _ (hsyst _ _ _ (by simp [systNames])), hrow]
  · rw [e2, getCol_add_syst_jes _ _ _ _ _ (hsyst _ _ _ (by simp [systNames])), hrow]
  · rw [e2, getCol_add_syst_tag _ _ _ _ _ (hsyst _ _ _ (by simp [systNames])), hrow]
  · rw [e3, getCol_add_syst_tag _ _ _ _ _ (hsyst _ _ _ (by simp [systNames])), hrow]

theorem per_cycle_bookkeeping_witness :
    getCol ((jes_only_tables idApplier baseW zeroDraws 1).getD 0 []) "syst_met_px"
      = List.replicate (numRows baseW) (Value.f32 0) :=
  (per_cycle_bookkeeping idApplier baseW zeroDraws 1
    (fun _ _ => rfl)
    (fun _ _ s hs => by
      simp only [systNames, List.mem_cons, List.not_mem_nil, or_false] at hs
      rcases hs with rfl | rfl | rfl | rfl <;> simp [idApplier, baseW])
    0 (by decide)).1

/-- C8: two runs over the same base table, with appliers that agree on all
inputs (a deterministic applier) and raw-variate streams that agree
pointwise (the same seed sequence), produce identical output tables for all
three families. -/
theorem two_run_determinism (syst1 syst2 : SystApplier) (base : Table)
    (draws1 draws2 : Nat → ℚ) (N : Nat)
    (happ : ∀ b sh ms rg, syst1 b sh ms rg = syst2 b sh ms rg)
    (hdr : ∀ i, draws1 i = draws2 i) :
    table_jes_only syst1 base draws1 N = table_jes_only syst2 base draws2 N
    ∧ table_met_only syst1 base draws1 N = table_met_only syst2 base draws2 N
    ∧ table_jes_met syst1 base draws1 N = table_jes_met syst2 base draws2 N := by
  refine ⟨?_, ?_, ?_⟩ <;>
    simp only [table_jes_only, table_met_only, table_jes_met, jes_only_tables,
      met_only_tables, jes_met_tables, hdr, happ]

theorem two_run_determinism_witness :
    table_jes_only idApplier baseW zeroDraws 1 = table_jes_only idApplier baseW zeroDraws 1 :=
  (two_run_determinism idApplier idApplier baseW zeroDraws zeroDraws 1
    (fun _ _ _ _ => rfl) (fun _ => rfl)).1

/-! ## The configuration surface (lines 25-34) and its (absent) validation

The distribution parameters are module-level constants. To state what the
program does under other parameter values, the constants are gathered into
a record and the sampler is parameterised by it; the shipped behaviour is
the record `defaultSystConfig`. -/

structure SystConfig where
  jes_sigma : ℚ
  jes_min : ℚ
  jes_max : ℚ
  met_lognorm_mean : ℚ
  met_lognorm_sigma : ℚ
  met_min : ℚ
  met_max : ℚ

/-- The configuration the script ships with (lines 25-34). -/
def defaultSystConfig : SystConfig where
  jes_sigma := JES_SIGMA
  jes_min := JES_MIN
  jes_max := JES_MAX
  met_lognorm_mean := MET_LOGNORM_MEAN
  met_lognorm_sigma := MET_LOGNORM_SIGMA
  met_min := MET_MIN
  met_max := MET_MAX

/-- Validity of distribution parameters as the spec defines it: positive
sigmas and min below max for both clipping intervals. -/
def configValid (c : SystConfig) : Prop :=
  0 < c.jes_sigma ∧ c.jes_min < c.jes_max
    ∧ 0 < c.met_lognorm_sigma ∧ c.met_min < c.met_max

instance (c : SystConfig) : Decidable (configValid c) :=
  inferInstanceAs (Decidable (0 < c.jes_sigma ∧ c.jes_min < c.jes_max
    ∧ 0 < c.met_lognorm_sigma ∧ c.met_min < c.met_max))

/-- Model of `sample_jes` with the module constants read from a configuration
record. `np.random.normal(0.0, sigma)` raises `ValueError` when `sigma` is
negative (numpy accepts `sigma = 0`), so no variate exists on that path; for
non-negative sigma the raw variate `draw` is clipped as in the script. -/
def sample_jes_cfg (c : SystConfig) (draw : ℚ) : Except String ℚ :=
  if c.jes_sigma < 0 then Except.error "ValueError: scale < 0"
  else Except.ok (np_clip draw c.jes_min c.jes_max)

/-- The JES-only generation loop with the module constants read from a
configuration record: cycles run in order, and an error raised by the
sampler aborts the loop (Python exception propagation). -/
def jes_only_tables_cfg (c : SystConfig) (syst : SystApplier) (base : Table)
    (draws : Nat → ℚ) : List Nat → Except String (List Table)
  | [] => Except.ok []
  | i :: rest =>
      match sample_jes_cfg c (draws i) with
      | Except.error e => Except.error e
      | Except.ok jes =>
          let shifted := syst base (some (make_jes_object_shift jes)) none true
          let t := add_syst_columns shifted jes 0 0 (Int.ofNat i)
          match jes_only_tables_cfg c syst base draws rest with
          | Except.error e => Except.error e
          | Except.ok ts => Except.ok (t :: ts)

/-- An invalid configuration whose invalidity lies only in the clipping
intervals (min above max for both); the sigmas are kept valid, so numpy
sampling itself succeeds. -/
def badSystConfig : SystConfig where
  jes_sigma := JES_SIGMA
  jes_min := 1/10
  jes_max := -(1/10)
  met_lognorm_mean := 0
  met_lognorm_sigma := 1
  met_min := 5
  met_max := 0

/-- C6 counterexample: `badSystConfig` is invalid (min above max), yet
nothing is rejected: the sampler succeeds and returns a value (`np.clip`
with `min > max` degenerates to the max bound), and both generation cycles
run to completion, producing annotated per-cycle tables. -/
theorem no_config_rejection_counterexample :
    ¬ configValid badSystConfig
    ∧ sample_jes_cfg badSystConfig 0 = Except.ok badSystConfig.jes_max
    ∧ jes_only_tables_cfg badSystConfig idApplier baseW zeroDraws (List.range 2)
        = Except.ok
            [add_syst_columns baseW badSystConfig.jes_max 0 0 (Int.ofNat 0),
             add_syst_columns baseW badSystConfig.jes_max 0 0 (Int.ofNat 1)]
    ∧ getCol (add_syst_columns baseW badSystConfig.jes_max 0 0 (Int.ofNat 0)) "syst_tag"
        = List.replicate 2 (Value.i64 0) := by
  have hs0 : sample_jes_cfg badSystConfig (zeroDraws 0) = Except.ok badSystConfig.jes_max := by
    unfold sample_jes_cfg
    rw [if_neg (by norm_num [badSystConfig, JES_SIGMA])]
    exact congrArg Except.ok (min_eq_left (le_trans (by norm_num [badSystConfig])
      (le_max_right (zeroDraws 0) badSystConfig.jes_min)))
  have hs1 : sample_jes_cfg badSystConfig (zeroDraws 1) = Except.ok badSystConfig.jes_max := hs0
  refine ⟨?_, hs0, ?_, ?_⟩
  · intro h
    exact absurd h.2.1 (by norm_num [badSystConfig])
  · rw [show List.range 2 = [0, 1] from rfl]
    simp only [jes_only_tables_cfg]
    rw [hs0, hs1]
    rfl
  · rw [getCol_add_syst_tag _ _ _ _ _ (by decide)]
    rfl

/-- C6 (amended): the shipped configuration constants are valid, and the
program performs no validation: when only the clipping interval is invalid
(`max ≤ min`, sigma non-negative) sampling proceeds anyway and returns the
max bound, and when the sigma is negative numpy raises `ValueError` at the
first sampling call — inside the first cycle, not as a rejection before
cycles run. -/
theorem config_constants_valid_no_rejection :
    configValid defaultSystConfig
    ∧ (∀ (c : SystConfig) (draw : ℚ), 0 ≤ c.jes_sigma → c.jes_max ≤ c.jes_min →
        sample_jes_cfg c draw = Except.ok c.jes_max)
    ∧ (∀ (c : SystConfig) (draw : ℚ), c.jes_sigma < 0 →
        sample_jes_cfg c draw = Except.error "ValueError: scale < 0") := by
  refine ⟨?_, ?_, ?_⟩
  · unfold configValid defaultSystConfig
    norm_num [JES_SIGMA, JES_MIN, JES_MAX, MET_LOGNORM_SIGMA, MET_MIN, MET_MAX]
  · intro c draw h0 h
    unfold sample_jes_cfg
    rw [if_neg (not_lt.mpr h0)]
    exact congrArg Except.ok (min_eq_left (le_trans h (le_max_right draw c.jes_min)))
  · intro c draw h
    unfold sample_jes_cfg
    rw [if_pos h]

/-! ## Failure semantics of `main` (lines 106-220)

The three family loops run sequentially, each followed immediately by its
`pq.write_table` call. A Python exception from the sampler or the applier
inside a loop aborts the process, so the file of a family is written exactly
when all its cycles (and all earlier families) completed. This control
flow is modelled with `Except`-valued per-cycle computations and a list of
performed writes. -/

def OUTPUT_JES_ONLY : String := "data_syst_JES_only.parquet"

def OUTPUT_MET_ONLY : String := "data_syst_MET_only.parquet"

def OUTPUT_JES_MET : String := "data_syst_JES_MET.parquet"

/-- Run the per-cycle computations in order, aborting at the first error
(the Python `for` loop under exception propagation). -/
def runCycles {E : Type} (cyc : Nat → Except E Table) : List Nat → Except E (List Table)
  | [] => Except.ok []
  | i :: rest =>
      match cyc i with
      | Except.error e => Except.error e
      | Except.ok t =>
          match runCycles cyc rest with
          | Except.error e => Except.error e
          | Except.ok ts => Except.ok (t :: ts)

/-- Process the families in order: run all `N` cycles, then write the
concatenated table; stop at the first failing family. Returns the writes
performed (filename and table, in order) and the terminating error, if
any. -/
def writeFamilies {E : Type} (N : Nat) :
    List (String × (Nat → Except E Table)) → List (String × Table) × Option E
  | [] => ([], none)
  | (fname, cyc) :: rest =>
      match runCycles cyc (List.range N) with
      | Except.error e => ([], some e)
      | Except.ok ts =>
          let out := writeFamilies N rest
          ((fname, concat_tables ts) :: out.1, out.2)

/-- Write behaviour of `main`: the three families in their fixed order. -/
def mainE {E : Type} (cyc0 cyc1 cyc2 : Nat → Except E Table) (N : Nat) :
    List (String × Table) × Option E :=
  writeFamilies N [(OUTPUT_JES_ONLY, cyc0), (OUTPUT_MET_ONLY, cyc1), (OUTPUT_JES_MET, cyc2)]

theorem runCycles_error {E : Type} (cyc : Nat → Except E Table) (l : List Nat)
    (h : ∃ i ∈ l, ∃ e, cyc i = Except.error e) :
    ∃ e, runCycles cyc l = Except.error e := by
  induction l with
  | nil => simp at h
  | cons a rest ih =>
      obtain ⟨i, hi, e, he⟩ := h
      cases hmem : cyc a with
      | error e2 => exact ⟨e2, by simp [runCycles, hmem]⟩
      | ok t =>
          have hir : i ∈ rest := by
            rcases List.mem_cons.mp hi with rfl | hr
            · rw [he] at hmem
              simp at hmem
            · exact hr
          obtain ⟨e3, he3⟩ := ih ⟨i, hir, e, he⟩
          exact ⟨e3, by simp [runCycles, hmem, he3]⟩

theorem runCycles_ok {E : Type} (cyc : Nat → Except E Table) (l : List Nat)
    (h : ∀ i ∈ l, ∃ t, cyc i = Except.ok t) :
    ∃ ts, runCycles cyc l = Except.ok ts := by
  induction l with
  | nil => exact ⟨[], rfl⟩
  | cons a rest ih =>
      obtain ⟨t, ht⟩ := h a (by simp)
      obtain ⟨ts, hts⟩ := ih (fun i hi => h i (by simp [hi]))
      exact ⟨t :: ts, by simp [runCycles, ht, hts]⟩

/-- C7: if every cycle of the families before family `k` succeeds and some
cycle of family `k` fails, the run stops with an error having written
exactly the output files of the earlier families, in order — the file of
family `k` is never written, and a file is written only after all `N` cycles of
its family completed. -/
theorem failure_aborts_before_write {E : Type} (c0 c1 c2 : Nat → Except E Table)
    (N : Nat) (k : Nat) (hk : k < 3)
    (hfail : ∃ i ∈ List.range N, ∃ e,
      [c0, c1, c2].getD k (fun _ => Except.ok []) i = Except.error e)
    (hok : ∀ j, j < k → ∀ i ∈ List.range N, ∃ t,
      [c0, c1, c2].getD j (fun _ => Except.ok []) i = Except.ok t) :
    (mainE c0 c1 c2 N).1.map Prod.fst
        = [OUTPUT_JES_ONLY, OUTPUT_MET_ONLY, OUTPUT_JES_MET].take k
    ∧ (mainE c0 c1 c2 N).2.isSome := by
  interval_cases k
  · obtain ⟨e, he⟩ := runCycles_error c0 (List.range N) (by simpa using hfail)
    refine ⟨?_, ?_⟩ <;> simp [mainE, writeFamilies, he]
  · obtain ⟨ts0, h0⟩ := runCycles_ok c0 (List.range N)
      (by simpa using hok 0 (by norm_num))
    obtain ⟨e, he⟩ := runCycles_error c1 (List.range N) (by simpa using hfail)
    refine ⟨?_, ?_⟩ <;> simp [mainE, writeFamilies, h0, he]
  · obtain ⟨ts0, h0⟩ := runCycles_ok c0 (List.range N)
      (by simpa using hok 0 (by norm_num))
    obtain ⟨ts1, h1⟩ := runCycles_ok c1 (List.range N)
      (by simpa using hok 1 (by norm_num))
    obtain ⟨e, he⟩ := runCycles_error c2 (List.range N) (by simpa using hfail)
    refine ⟨?_, ?_⟩ <;> simp [mainE, writeFamilies, h0, h1, he]

/-- A per-cycle computation that always succeeds. -/
def okCyc : Nat → Except Unit Table := fun _ => Except.ok baseW

/-- A per-cycle computation that fails on its first cycle. -/
def failCyc : Nat → Except Unit Table := fun i =>
  if i = 0 then Except.error () else Except.ok baseW

theorem failure_aborts_before_write_witness :
    (mainE okCyc failCyc okCyc 1).1.map Prod.fst
        = [OUTPUT_JES_ONLY, OUTPUT_MET_ONLY, OUTPUT_JES_MET].take 1
    ∧ (mainE okCyc failCyc okCyc 1).2.isSome := by
  apply failure_aborts_before_write okCyc failCyc okCyc 1 1 (by norm_num)
  · exact ⟨0, by decide, (), rfl⟩
  · intro j hj i hi
    interval_cases j
    exact ⟨baseW, rfl⟩
